import Mathlib

/-!
Verification of the silence-detection/removal engine and the playback
pieces of the `solid-meme` audio editor (sources: `src/app.rs`,
`src/audio.rs`, `src/main.rs`).

Conventions of the embedding:
* 16-bit samples are modelled as `Int`; the `f32` amplitude arithmetic of
  the source is modelled exactly over `ℚ` (the claims under study depend
  only on the comparison structure of the scan, which is identical).
* Rust code that can panic (out-of-bounds indexing, division by zero) is
  modelled as returning `Option`, with `none` for the panic.
* The frame iteration `for i in (0..total).step_by(channels)` together
  with the guarded inner loop `for ch in 0..channels { if i + ch < total }`
  is rendered by `toFrames`: the `k`-th frame is the slice of (at most)
  `channels` raw samples starting at raw index `k * channels`.
-/

/-- Per-frame amplitude, `app.rs` lines 89-96 (and `main.rs` lines 74-79):
`frame_amplitude = (Σ_ch |sample| / 32767) / channels`. -/
def frameAmp (channels : Nat) (f : List Int) : ℚ :=
  ((f.map (fun s => (s.natAbs : ℚ) / 32767)).sum) / channels

/-- The silence test of the scan: `frame_amplitude < silence_threshold`
(strict comparison, `app.rs` line 98 / line 162, `main.rs` line 81). -/
def isSilent (θ : ℚ) (channels : Nat) (f : List Int) : Bool :=
  decide (frameAmp channels f < θ)

/-- Frame decomposition of an interleaved buffer: one frame per iteration
of `for i in (0..total).step_by(channels)`, the frame holding the samples
`samples[i + ch]` with `i + ch < total` (so the last frame may be short
when the length is not a multiple of `channels`). -/
def toFrames (channels : Nat) (l : List Int) : List (List Int) :=
  (List.range ((l.length + channels - 1) / channels)).map
    (fun k => (l.drop (k * channels)).take channels)

/-- The copy loop of `remove_all_silence_background` (`app.rs` lines
171-177 and 193-199):
`for j in (a..b).step_by(channels) { for ch in 0..channels { if j + ch < total { push samples[j + ch] } } }`. -/
def copyRange (samples : List Int) (channels a b : Nat) : List Int :=
  (List.range ((b - a + channels - 1) / channels)).flatMap
    (fun k => (List.range channels).filterMap (fun ch => samples[a + k * channels + ch]?))

/-- The scan of `detect_silence_background` (`app.rs` lines 83-122).
State: `i` is the raw index of the current frame, `count` the length (in
frames) of the current sub-threshold run, `start` the raw index where that
run began (stale once the run is closed, exactly as in the source), and
`segs` the segments pushed so far.  The base case is the trailing-run test
after the loop (`app.rs` lines 117-119). -/
def detectLoop (θ : ℚ) (minSamples channels total : Nat) :
    List (List Int) → Nat → Nat → Nat → List (Nat × Nat) → List (Nat × Nat)
  | [], _i, count, start, segs =>
    if minSamples ≤ count then segs ++ [(start, total)] else segs
  | f :: fs, i, count, start, segs =>
    if isSilent θ channels f then
      detectLoop θ minSamples channels total fs (i + channels) (count + 1)
        (if count = 0 then i else start) segs
    else if 0 < count then
      detectLoop θ minSamples channels total fs (i + channels) 0 start
        (if minSamples ≤ count then segs ++ [(start, i)] else segs)
    else
      detectLoop θ minSamples channels total fs (i + channels) 0 start segs

/-- `detect_silence_background` (`app.rs` lines 63-123): the segment list
sent on the result channel.  `min_samples = min_len * sample_rate / 1000`
(integer division by the literal 1000, `app.rs` line 104). -/
def detectSilence (θ : ℚ) (minLen channels sampleRate : Nat) (samples : List Int) :
    List (Nat × Nat) :=
  detectLoop θ (minLen * sampleRate / 1000) channels samples.length
    (toFrames channels samples) 0 0 0 []

/-- The scan of `remove_all_silence_background` (`app.rs` lines 145-202).
Same amplitude scan as `detectLoop`; additionally `lastEnd` is the raw
index up to which samples have been flushed into `res`, and when a
qualifying run `[start, i)` is closed by a loud frame the region
`[lastEnd, start)` is flushed and `lastEnd` becomes `i` (lines 169-179).
The base case performs the trailing-run segment test (lines 189-191) and
the final flush `[lastEnd, total)` (lines 193-199) — note the trailing
test does NOT update `lastEnd`. -/
def removeLoop (samples : List Int) (θ : ℚ) (minSamples channels : Nat) :
    List (List Int) → Nat → Nat → Nat → Nat → List (Nat × Nat) → List Int →
    List (Nat × Nat) × List Int
  | [], _i, count, start, lastEnd, segs, res =>
    ((if minSamples ≤ count then segs ++ [(start, samples.length)] else segs),
     res ++ copyRange samples channels lastEnd samples.length)
  | f :: fs, i, count, start, lastEnd, segs, res =>
    if isSilent θ channels f then
      removeLoop samples θ minSamples channels fs (i + channels) (count + 1)
        (if count = 0 then i else start) lastEnd segs res
    else if 0 < count then
      if minSamples ≤ count then
        removeLoop samples θ minSamples channels fs (i + channels) 0 start i
          (segs ++ [(start, i)]) (res ++ copyRange samples channels lastEnd start)
      else
        removeLoop samples θ minSamples channels fs (i + channels) 0 start lastEnd segs res
    else
      removeLoop samples θ minSamples channels fs (i + channels) 0 start lastEnd segs res

/-- `remove_all_silence_background` (`app.rs` lines 125-203): the pair
(segment list, new sample buffer) sent on the result channel. -/
def removeAllSilence (θ : ℚ) (minLen channels sampleRate : Nat) (samples : List Int) :
    List (Nat × Nat) × List Int :=
  removeLoop samples θ (minLen * sampleRate / 1000) channels
    (toFrames channels samples) 0 0 0 0 [] []

/-- The scan of the legacy `remove_silence` in `main.rs` (lines 61-100),
which can panic: the amplitude loop indexes `samples[i + ch]` without a
bound guard (line 76, `none` when the final frame is short), and the run
length test divides by `sample_rate / 1000` (line 84, `none` when that is
zero).  A run shorter than the minimum is replaced by `count * channels`
zero samples (lines 85-89); a qualifying run is dropped; a trailing run is
silently discarded at end of loop (there is no flush after the loop). -/
def removeMainLoop (θ : ℚ) (minLen sampleRate channels : Nat) :
    List (List Int) → Nat → List Int → Option (List Int)
  | [], _count, res => some res
  | f :: fs, count, res =>
    if f.length < channels then none
    else if isSilent θ channels f then
      removeMainLoop θ minLen sampleRate channels fs (count + 1) res
    else if sampleRate / 1000 = 0 then none
    else
      removeMainLoop θ minLen sampleRate channels fs 0
        ((res ++ (if count < minLen / (sampleRate / 1000)
                  then List.replicate (count * channels) 0 else [])) ++ f)

/-- `remove_silence` of `main.rs` (lines 61-100), with `none` modelling a
panic of the Rust code. -/
def removeSilenceMain (θ : ℚ) (minLen channels sampleRate : Nat) (samples : List Int) :
    Option (List Int) :=
  removeMainLoop θ minLen sampleRate channels (toFrames channels samples) 0 []

/-- Reference form of the removal scan, used to state what the removal
pass computes: `pending` is the current sub-threshold run; a loud frame
closes the run and keeps it verbatim when shorter than `m` frames
(otherwise drops it); a run still pending at the end of the buffer is kept
whatever its length (mirroring that the source's trailing-run branch does
not update `last_end`). -/
def rmLoop (p : List Int → Bool) (m : Nat) :
    List (List Int) → List (List Int) → List (List Int)
  | [], pending => pending
  | f :: fs, pending =>
    if p f then rmLoop p m fs (pending ++ [f])
    else (if pending.length < m then pending else []) ++ f :: rmLoop p m fs []

/-- Proof-side scanner: `noRem fs run = true` says that, starting with a
pending sub-threshold run of `run` frames, the list `fs` contains no
interior sub-threshold run of length at least `m` (so the removal scan
keeps everything). -/
def noRem (p : List Int → Bool) (m : Nat) : List (List Int) → Nat → Bool
  | [], _run => true
  | f :: fs, run =>
    if p f then noRem p m fs (run + 1)
    else (decide (run < m) || decide (run = 0)) && noRem p m fs 0

/-- State shared with the audio-device callback: the playback cursor
(`current_idx` in `audio.rs`) and, for this model, the number of
completion signals that have been sent on `stop_tx`. -/
structure CallbackState where
  idx : Nat
  sent : Nat

/-- The per-slot body of the render callback (`audio.rs` lines 68-78):
for each output slot, if the cursor is inside the buffer emit
`samples[idx] / 32767` and advance the cursor, otherwise emit silence and
record `all_played`.  Returns (emitted values, final cursor, all_played). -/
def renderSlots (samples : List Int) : Nat → Nat → List ℚ × Nat × Bool
  | 0, idx => ([], idx, false)
  | n + 1, idx =>
    if h : idx < samples.length then
      ((((samples[idx] : Int) : ℚ) / 32767) :: (renderSlots samples n (idx + 1)).1,
       (renderSlots samples n (idx + 1)).2.1,
       (renderSlots samples n (idx + 1)).2.2)
    else
      ((0 : ℚ) :: (renderSlots samples n idx).1,
       (renderSlots samples n idx).2.1,
       true)

/-- One invocation of the render callback of `play_samples` (`audio.rs`
lines 65-85): render every slot, then — `if all_played && *idx >= sample_len`
(line 80) — send one completion signal (line 82, modelled by incrementing
`sent`). -/
def renderCallback (samples : List Int) (slots : Nat) (s : CallbackState) :
    CallbackState × List ℚ :=
  (⟨(renderSlots samples slots s.idx).2.1,
    if (renderSlots samples slots s.idx).2.2
        && decide (samples.length ≤ (renderSlots samples slots s.idx).2.1)
    then s.sent + 1 else s.sent⟩,
   (renderSlots samples slots s.idx).1)

/-- The fields of `SoundApp` (`app.rs` lines 8-22) that the job-submission
guard and the job bookkeeping read or write. -/
structure Session where
  isProcessing : Bool
  fileLoaded : Bool
  specLoaded : Bool
  processingProgress : ℚ
  progressRx : Bool
  resultRx : Bool

/-- Outcome of a job submission: `busy` models the early `return;` of the
guard (`app.rs` lines 64-66 / 126-128, nothing is spawned and nothing is
touched), `started` models falling through to the spawn. -/
inductive SubmitResult where
  | busy
  | started

/-- The controller-visible state transition of `detect_silence_background`
(`app.rs` lines 63-73): guard, then mark processing, reset progress and
install fresh channels before spawning the worker. -/
def submitDetect (s : Session) : Session × SubmitResult :=
  if s.isProcessing || !s.fileLoaded || !s.specLoaded then (s, SubmitResult.busy)
  else (⟨true, s.fileLoaded, s.specLoaded, 0, true, true⟩, SubmitResult.started)

/-- The controller-visible state transition of
`remove_all_silence_background` (`app.rs` lines 125-135): identical guard
and bookkeeping. -/
def submitRemove (s : Session) : Session × SubmitResult :=
  if s.isProcessing || !s.fileLoaded || !s.specLoaded then (s, SubmitResult.busy)
  else (⟨true, s.fileLoaded, s.specLoaded, 0, true, true⟩, SubmitResult.started)

/-- `jump_to_position` (`app.rs` lines 308-311): the cursor is set to
`sample_idx.min(waveform.samples_raw.len())`. -/
def jumpToPosition (samplesRaw : List Int) (sampleIdx : Nat) : Nat :=
  min sampleIdx samplesRaw.length

theorem isSilent_eq_true_iff (θ : ℚ) (c : Nat) (f : List Int) :
    isSilent θ c f = true ↔ frameAmp c f < θ := by
  simp [isSilent]

theorem isSilent_eq_false_iff (θ : ℚ) (c : Nat) (f : List Int) :
    isSilent θ c f = false ↔ ¬ frameAmp c f < θ := by
  simp [isSilent]

theorem isSilent_loud_10000_mono (θ : ℚ) (hθ : θ = 1/100) : isSilent θ 1 [10000] = false := by
  rw [isSilent_eq_false_iff, hθ]
  norm_num [frameAmp]

theorem isSilent_zero_mono (θ : ℚ) (hθ : θ = 1/100) : isSilent θ 1 [0] = true := by
  rw [isSilent_eq_true_iff, hθ]
  norm_num [frameAmp]

theorem isSilent_soft_100_mono (θ : ℚ) (hθ : θ = 1/100) : isSilent θ 1 [100] = true := by
  rw [isSilent_eq_true_iff, hθ]
  norm_num [frameAmp]

theorem isSilent_loud_pair (θ : ℚ) (hθ : θ = 1/100) : isSilent θ 2 [10000, 10000] = false := by
  rw [isSilent_eq_false_iff, hθ]
  norm_num [frameAmp]

theorem isSilent_loud_half_frame (θ : ℚ) (hθ : θ = 1/100) : isSilent θ 2 [10000] = false := by
  rw [isSilent_eq_false_iff, hθ]
  norm_num [frameAmp]

theorem trailing_gen (θ : ℚ) (h1 : isSilent θ 1 [10000] = false)
    (h2 : isSilent θ 1 [0] = true) :
    detectSilence θ 2 1 1000 [10000, 0, 0] = [(1, 3)] ∧
      removeAllSilence θ 2 1 1000 [10000, 0, 0] = ([(1, 3)], [10000, 0, 0]) := by
  constructor
  · simp [detectSilence, toFrames, List.range_succ, detectLoop, h1, h2]
  · simp [removeAllSilence, toFrames, List.range_succ, removeLoop, h1, h2, copyRange]

/-- Claim C1: on the mono 1000 Hz buffer `[10000, 0, 0]` with threshold
`1/100` and minimum length 2 ms (2 frames), `detect_silence_background`
reports the trailing interval `[1, 3)`; `remove_all_silence_background`
also pushes that interval into its own segment list, yet its output buffer
is the input unchanged — the trailing run test (`app.rs` 189-191) never
updates `last_end`, so the final flush (193-199) copies the trailing
silence through.  Hence the frames removed by remove are NOT the union of
the intervals returned by detect. -/
theorem trailing_silence_reported_but_not_removed :
    detectSilence (1/100) 2 1 1000 [10000, 0, 0] = [(1, 3)] ∧
      removeAllSilence (1/100) 2 1 1000 [10000, 0, 0] = ([(1, 3)], [10000, 0, 0]) :=
  trailing_gen (1/100) (isSilent_loud_10000_mono _ rfl) (isSilent_zero_mono _ rfl)

theorem zero_fill_gen (θ : ℚ) (h1 : isSilent θ 1 [10000] = false)
    (h2 : isSilent θ 1 [100] = true) :
    removeSilenceMain θ 5 1 1000 [10000, 100, 10000] = some [10000, 0, 10000] := by
  simp [removeSilenceMain, toFrames, List.range_succ, removeMainLoop, h1, h2]

/-- Claim C2, counterexample: on the mono 1000 Hz buffer
`[10000, 100, 10000]` with threshold `1/100` and minimum length 5 ms, the
sample `100` forms a sub-threshold run of one frame (shorter than the
minimum of 5 frames); the legacy `remove_silence` of `main.rs` replaces it
by a literal zero sample (line 87, `result_samples.push(0)`) instead of
copying it through unchanged. -/
theorem legacy_remove_zero_fills_short_run :
    removeSilenceMain (1/100) 5 1 1000 [10000, 100, 10000] = some [10000, 0, 10000] ∧
      ([10000, 0, 10000] : List Int) ≠ [10000, 100, 10000] :=
  ⟨zero_fill_gen (1/100) (isSilent_loud_10000_mono _ rfl) (isSilent_soft_100_mono _ rfl),
   by decide⟩

/-- Claim C3: the completion notification is NOT idempotent.  With the
one-sample buffer `[5]` and the cursor already at the buffer end (index
1), each of two successive render-callback invocations with one output
slot satisfies `all_played && *idx >= sample_len` (`audio.rs` line 80) and
sends a fresh completion signal (line 82): after two invocations two
signals have been sent, not at most one. -/
theorem completion_signal_resent_every_callback :
    ((renderCallback [5] 1 ((renderCallback [5] 1 ⟨1, 0⟩).1)).1).sent = 2 := by
  rfl

theorem low_rate_gen (θ : ℚ) (h1 : isSilent θ 1 [10000] = false) :
    removeSilenceMain θ 1000 1 800 [10000] = none ∧
      detectSilence θ 1000 1 800 [10000] = [] := by
  constructor
  · simp [removeSilenceMain, toFrames, List.range_succ, removeMainLoop, h1]
  · simp [detectSilence, toFrames, List.range_succ, detectLoop, h1]

/-- Claim C4: for `sample_rate = 800 < 1000` the code does not fail with a
typed `InvalidInput`: `remove_silence` (`main.rs` line 84) evaluates
`min_silence_len / (sample_rate / 1000)` whose divisor is `0` and panics
(modelled by `none`); `detect_silence_background` (`app.rs` line 104)
computes `min_len * sample_rate / 1000` — divisor is the literal 1000 —
and silently completes, returning a plain segment list.  No `InvalidInput`
error value exists anywhere in the code. -/
theorem low_sample_rate_panics_rather_than_typed_error :
    removeSilenceMain (1/100) 1000 1 800 [10000] = none ∧
      detectSilence (1/100) 1000 1 800 [10000] = [] :=
  low_rate_gen (1/100) (isSilent_loud_10000_mono _ rfl)

theorem misaligned_gen (θ : ℚ) (h1 : isSilent θ 2 [10000, 10000] = false)
    (h2 : isSilent θ 2 [10000] = false) :
    removeSilenceMain θ 100 2 8000 [10000, 10000, 10000] = none ∧
      (removeAllSilence θ 100 2 8000 [10000, 10000, 10000]).2 = [10000, 10000, 10000] := by
  constructor
  · simp [removeSilenceMain, toFrames, List.range_succ, removeMainLoop, h1, h2]
  · simp [removeAllSilence, toFrames, List.range_succ, removeLoop, h1, h2, copyRange]

/-- Claim C5: a 3-sample stereo buffer (length not a multiple of
`channel_count = 2`) does not produce a typed `CorruptAudioData` failure:
`remove_silence` (`main.rs` line 76) indexes `samples[i + ch]` without a
guard on the short final frame and panics (modelled by `none`), while
`remove_all_silence_background` (`app.rs` line 91, guard `i + ch < total`)
silently scans the entire buffer — including the short final frame — and
returns a full result.  No `CorruptAudioData` error value exists anywhere
in the code. -/
theorem misaligned_buffer_panics_or_scans_fully :
    removeSilenceMain (1/100) 100 2 8000 [10000, 10000, 10000] = none ∧
      (removeAllSilence (1/100) 100 2 8000 [10000, 10000, 10000]).2
        = [10000, 10000, 10000] :=
  misaligned_gen (1/100) (isSilent_loud_pair _ rfl) (isSilent_loud_half_frame _ rfl)

/-- Claim C8: while a job is running (`is_processing = true`), submitting
a detect or a remove job takes the early-return branch of the guard
(`app.rs` lines 64-66 and 126-128): the session state — including the
running job's progress and its two channels — is returned untouched, and
no worker is spawned. -/
theorem second_submission_rejected (s : Session) (h : s.isProcessing = true) :
    submitDetect s = (s, SubmitResult.busy) ∧ submitRemove s = (s, SubmitResult.busy) := by
  simp [submitDetect, submitRemove, h]

theorem second_submission_rejected_witness :
    (⟨true, true, true, 1/2, true, true⟩ : Session).isProcessing = true ∧
      (submitDetect ⟨true, true, true, 1/2, true, true⟩
          = (⟨true, true, true, 1/2, true, true⟩, SubmitResult.busy) ∧
        submitRemove ⟨true, true, true, 1/2, true, true⟩
          = (⟨true, true, true, 1/2, true, true⟩, SubmitResult.busy)) :=
  ⟨rfl, second_submission_rejected _ rfl⟩

/-- Claim C9, counterexample: the clamp bound of `jump_to_position`
(`app.rs` line 310) is `samples_raw.len()`, the length in raw interleaved
samples, not the length in frames.  For a 2-channel buffer of 4 raw
samples (2 frames), seeking to 100 leaves the cursor at 4, outside
`[0, buffer_length_in_frames] = [0, 2]`. -/
theorem seek_beyond_clamps_to_samples_not_frames :
    jumpToPosition [1, 1, 1, 1] 100 = 4 ∧
      ¬ jumpToPosition [1, 1, 1, 1] 100 ≤ ([1, 1, 1, 1] : List Int).length / 2 := by
  decide

/-- Claim C9, amended: for every buffer and every target,
`jump_to_position` writes `min target samples_raw.len()` to the cursor: it
clamps into `[0, buffer length in raw samples]`, never exceeds the buffer
length, and (the cursor being a `usize`/`Nat`) is never negative; the
function is total, so it never panics. -/
theorem seek_clamps_to_buffer_length (samplesRaw : List Int) (n : Nat) :
    jumpToPosition samplesRaw n = min n samplesRaw.length ∧
      jumpToPosition samplesRaw n ≤ samplesRaw.length :=
  ⟨rfl, min_le_right _ _⟩

theorem renderSlots_spec (samples : List Int) :
    ∀ (slots idx : Nat),
      (renderSlots samples slots idx).1.length = slots ∧
      (∀ k, k < slots →
        (renderSlots samples slots idx).1.getD k 0 =
          if idx + k < samples.length
          then ((samples.getD (idx + k) 0 : Int) : ℚ) / 32767 else 0) ∧
      (renderSlots samples slots idx).2.1 = max idx (min (idx + slots) samples.length) := by
  intro slots
  induction slots with
  | zero =>
    intro idx
    refine ⟨rfl, fun k hk => absurd hk (by omega), ?_⟩
    simp only [renderSlots]
    omega
  | succ n ih =>
    intro idx
    by_cases h : idx < samples.length
    · obtain ⟨hlen, hval, hidx⟩ := ih (idx + 1)
      refine ⟨?_, ?_, ?_⟩
      · simp [renderSlots, h, hlen]
      · intro k hk
        cases k with
        | zero =>
          simp only [renderSlots, dif_pos h, List.getD_cons_zero, Nat.add_zero, if_pos h]
          rw [List.getD_eq_getElem _ _ h]
        | succ k' =>
          simp only [renderSlots, dif_pos h, List.getD_cons_succ]
          rw [hval k' (by omega)]
          have e : idx + 1 + k' = idx + (k' + 1) := by omega
          rw [e]
      · simp only [renderSlots, dif_pos h]
        rw [hidx]
        omega
    · obtain ⟨hlen, hval, hidx⟩ := ih idx
      refine ⟨?_, ?_, ?_⟩
      · simp [renderSlots, h, hlen]
      · intro k hk
        cases k with
        | zero =>
          simp only [renderSlots, dif_neg h, List.getD_cons_zero, Nat.add_zero]
          rw [if_neg h]
        | succ k' =>
          simp only [renderSlots, dif_neg h, List.getD_cons_succ]
          rw [hval k' (by omega)]
          have h1 : ¬ idx + k' < samples.length := by omega
          have h2 : ¬ idx + (k' + 1) < samples.length := by omega
          rw [if_neg h1, if_neg h2]
      · simp only [renderSlots, dif_neg h]
        rw [hidx]
        omega

/-- Claim C10: one render-callback invocation, for every buffer, cursor
value and output-slot count, is a total function (the only buffer access,
`samples[*idx]` in `audio.rs` line 71, sits under the guard
`*idx < sample_len` of line 70 and the embedding indexes with an in-bounds
proof): it emits exactly one value per slot, slot `k` carries the raw
sample at `cursor + k` converted to a normalized value when that position
is inside the buffer and silence (`0`) otherwise, and the cursor advances
by one per in-buffer slot, saturating at the buffer length. -/
theorem render_callback_slot_contract (samples : List Int) (slots idx sent : Nat) :
    (renderCallback samples slots ⟨idx, sent⟩).2.length = slots ∧
      (∀ k, k < slots →
        (renderCallback samples slots ⟨idx, sent⟩).2.getD k 0 =
          if idx + k < samples.length
          then ((samples.getD (idx + k) 0 : Int) : ℚ) / 32767 else 0) ∧
      (renderCallback samples slots ⟨idx, sent⟩).1.idx
        = max idx (min (idx + slots) samples.length) := by
  obtain ⟨hlen, hval, hidx⟩ := renderSlots_spec samples slots idx
  exact ⟨hlen, hval, hidx⟩

theorem render_callback_slot_contract_witness :
    (1 : Nat) < 2 ∧
      (renderCallback [5] 2 ⟨0, 0⟩).2.getD 1 0 =
        (if 0 + 1 < ([5] : List Int).length
         then ((([5] : List Int).getD (0 + 1) 0 : Int) : ℚ) / 32767 else 0) :=
  ⟨by decide, (render_callback_slot_contract [5] 2 0 0).2.1 1 (by decide)⟩

theorem ceil_div_succ (c n : Nat) (hc : 0 < c) (hn : 1 ≤ n) :
    (n + c - 1) / c = (n - c + c - 1) / c + 1 := by
  rcases le_or_lt c n with h | h
  · have e1 : n + c - 1 = (n - 1) + c := by omega
    have e2 : n - c + c - 1 = n - 1 := by omega
    rw [e1, e2, Nat.add_div_right _ hc]
  · have e1 : n + c - 1 = (n - 1) + c := by omega
    have e2 : n - c = 0 := by omega
    rw [e1, e2, Nat.add_div_right _ hc]
    have e3 : (n - 1) / c = 0 := Nat.div_eq_of_lt (by omega)
    have e4 : (0 + c - 1) / c = 0 := Nat.div_eq_of_lt (by omega)
    rw [e3, e4]

theorem toFrames_nil (c : Nat) : toFrames c [] = [] := by
  have h : (c - 1) / c = 0 := by
    rcases Nat.eq_zero_or_pos c with hc | hc
    · subst hc; rfl
    · exact Nat.div_eq_of_lt (by omega)
  simp [toFrames, h]

theorem toFrames_cons (c : Nat) (hc : 0 < c) (l : List Int) (hl : l ≠ []) :
    toFrames c l = l.take c :: toFrames c (l.drop c) := by
  have hn : 1 ≤ l.length := by
    cases l with
    | nil => simp at hl
    | cons a t => simp
  have harith : (l.length + c - 1) / c = ((l.drop c).length + c - 1) / c + 1 := by
    rw [List.length_drop]
    exact ceil_div_succ c l.length hc hn
  simp only [toFrames, harith, List.range_succ_eq_map, List.map_cons, List.map_map]
  refine congrArg₂ List.cons ?_ ?_
  · simp
  · refine List.map_congr_left ?_
    intro k _
    simp only [Function.comp_apply, Nat.succ_eq_add_one]
    rw [List.drop_drop]
    congr 2
    ring

theorem toFrames_ne_nil_imp (c : Nat) (hc : 0 < c) (l : List Int)
    (h : toFrames c l = []) : l = [] := by
  by_contra hne
  rw [toFrames_cons c hc l hne] at h
  simp at h

theorem flatten_toFrames (c : Nat) (hc : 0 < c) (l : List Int) :
    (toFrames c l).flatten = l := by
  suffices H : ∀ n (l : List Int), l.length ≤ n → (toFrames c l).flatten = l from
    H l.length l le_rfl
  intro n
  induction n with
  | zero =>
    intro l hl
    have h : l = [] := by cases l with | nil => rfl | cons a t => simp at hl
    subst h
    simp [toFrames_nil]
  | succ n ih =>
    intro l hl
    by_cases h : l = []
    · subst h; simp [toFrames_nil]
    · have hn : 1 ≤ l.length := by
        cases l with
        | nil => simp at h
        | cons a t => simp
      rw [toFrames_cons c hc l h, List.flatten_cons,
        ih (l.drop c) (by rw [List.length_drop]; omega)]
      exact List.take_append_drop c l

theorem toFrames_full_frames (c : Nat) (hc : 0 < c) :
    ∀ (n : Nat) (l : List Int), l.length ≤ n → c ∣ l.length →
      ∀ g ∈ toFrames c l, g.length = c := by
  intro n
  induction n with
  | zero =>
    intro l hl _ g hg
    have h : l = [] := by cases l with | nil => rfl | cons a t => simp at hl
    subst h
    rw [toFrames_nil] at hg
    simp at hg
  | succ n ih =>
    intro l hl hdvd g hg
    by_cases h : l = []
    · subst h; rw [toFrames_nil] at hg; simp at hg
    · have hn : 1 ≤ l.length := by
        cases l with
        | nil => simp at h
        | cons a t => simp
      have hcle : c ≤ l.length := Nat.le_of_dvd (by omega) hdvd
      rw [toFrames_cons c hc l h] at hg
      rcases List.mem_cons.mp hg with rfl | hg'
      · rw [List.length_take]; omega
      · exact ih (l.drop c) (by rw [List.length_drop]; omega)
          (by rw [List.length_drop]; exact Nat.dvd_sub' hdvd (dvd_refl c)) g hg'

theorem toFrames_flatten (c : Nat) (hc : 0 < c) :
    ∀ (G : List (List Int)), (∀ g ∈ G, g.length = c) → toFrames c G.flatten = G := by
  intro G
  induction G with
  | nil => intro _; simp [toFrames_nil]
  | cons g G ih =>
    intro hG
    have hg : g.length = c := hG g (List.mem_cons_self g G)
    have hne : (g :: G).flatten ≠ [] := by
      simp only [List.flatten_cons]
      intro e
      have := (List.append_eq_nil.mp e).1
      rw [this] at hg
      simp at hg
      omega
    rw [List.flatten_cons] at hne ⊢
    rw [toFrames_cons c hc _ hne]
    refine congrArg₂ List.cons ?_ ?_
    · rw [← hg]; exact List.take_left g G.flatten
    · have hdrop : (g ++ G.flatten).drop c = G.flatten := by
        rw [← hg]; exact List.drop_left g G.flatten
      rw [hdrop]
      exact ih (fun x hx => hG x (List.mem_cons_of_mem g hx))

theorem filterMap_getElem_range (l : List Int) (a : Nat) :
    ∀ c, (List.range c).filterMap (fun ch => l[a + ch]?) = (l.drop a).take c := by
  intro c
  induction c with
  | zero => simp
  | succ n ih =>
    rw [List.range_succ, List.filterMap_append, ih, List.take_succ]
    congr 1
    rw [List.getElem?_drop]
    cases h : l[a + n]? <;> simp [h]

theorem copyRange_closed (l : List Int) (c : Nat) (a : Nat) :
    ∀ K, (List.range K).flatMap
        (fun k => (List.range c).filterMap (fun ch => l[a + k * c + ch]?))
      = (l.drop a).take (K * c) := by
  intro K
  induction K with
  | zero => simp
  | succ n ih =>
    rw [List.range_succ, List.flatMap_append, ih]
    have hsingle : (([n] : List Nat).flatMap (fun k => (List.range c).filterMap
          (fun ch => l[a + k * c + ch]?)))
        = (List.range c).filterMap (fun ch => l[(a + n * c) + ch]?) := by
      simp only [List.flatMap_cons, List.flatMap_nil, List.append_nil]
    rw [hsingle, filterMap_getElem_range]
    have hdd : (l.drop a).drop (n * c) = l.drop (a + n * c) := by
      rw [List.drop_drop]
    rw [show (n + 1) * c = n * c + c by ring, List.take_add, hdd]

theorem copyRange_eq_flat (samples : List Int) (c a b : Nat) :
    copyRange samples c a b = (samples.drop a).take (((b - a + c - 1) / c) * c) := by
  rw [copyRange, copyRange_closed]

theorem copyRange_stop (samples : List Int) (c a b : Nat) (h : b ≤ a) :
    copyRange samples c a b = [] := by
  rw [copyRange_eq_flat]
  have h0 : b - a = 0 := by omega
  rw [h0]
  rcases Nat.eq_zero_or_pos c with hc | hc
  · subst hc; simp
  · rw [Nat.div_eq_of_lt (by omega)]
    simp

theorem copyRange_eq_take (samples : List Int) (c a b : Nat) (hc : 0 < c)
    (hdvd : c ∣ (b - a)) :
    copyRange samples c a b = (samples.drop a).take (b - a) := by
  rw [copyRange_eq_flat]
  obtain ⟨q, hq⟩ := hdvd
  rw [hq]
  have e : c * q + c - 1 = c * q + (c - 1) := by omega
  rw [e, Nat.mul_add_div hc, Nat.div_eq_of_lt (by omega), Nat.add_zero]
  congr 1
  ring

theorem copyRange_tail (samples : List Int) (c a b : Nat) (hc : 0 < c)
    (hb : samples.length ≤ b) :
    copyRange samples c a b = samples.drop a := by
  rcases le_or_lt b a with h | h
  · rw [copyRange_stop samples c a b h]
    have : samples.length ≤ a := by omega
    rw [List.drop_eq_nil_of_le this]
  · rw [copyRange_eq_flat]
    refine List.take_of_length_le ?_
    rw [List.length_drop]
    have hge : b - a ≤ ((b - a + c - 1) / c) * c := by
      have h1 : b - a + c - 1 < (b - a + c - 1) / c * c + c := Nat.lt_div_mul_add hc
      omega
    omega

theorem copyRange_split (samples : List Int) (c a b b' : Nat) (hc : 0 < c)
    (h1 : a ≤ b') (h2 : b' ≤ b) (d1 : c ∣ (b' - a)) (d2 : c ∣ (b - b')) :
    copyRange samples c a b = copyRange samples c a b' ++ copyRange samples c b' b := by
  have d3 : c ∣ (b - a) := by
    have e : b - a = (b' - a) + (b - b') := by omega
    rw [e]
    exact Nat.dvd_add d1 d2
  rw [copyRange_eq_take samples c a b hc d3, copyRange_eq_take samples c a b' hc d1,
    copyRange_eq_take samples c b' b hc d2]
  have e : b - a = (b' - a) + (b - b') := by omega
  have e2 : (samples.drop a).drop (b' - a) = samples.drop b' := by
    rw [List.drop_drop]
    congr 1
    omega
  rw [e, List.take_add, e2]

theorem copyRange_frame (samples : List Int) (c i : Nat) (hc : 0 < c) :
    copyRange samples c i (i + c) = (samples.drop i).take c := by
  rw [copyRange_eq_take samples c i (i + c) hc (by simp)]
  congr 1
  omega

theorem rmLoop_flatten_length (p : List Int → Bool) (m : Nat) :
    ∀ (fs pend : List (List Int)),
      ((rmLoop p m fs pend).flatten).length ≤ pend.flatten.length + fs.flatten.length := by
  intro fs
  induction fs with
  | nil => intro pend; simp [rmLoop]
  | cons f fs ih =>
    intro pend
    by_cases h : p f
    · rw [rmLoop, if_pos h]
      have hrec := ih (pend ++ [f])
      simp only [List.flatten_append, List.flatten_cons, List.flatten_nil,
        List.length_append, List.append_nil] at hrec ⊢
      omega
    · rw [rmLoop, if_neg h]
      have hrec := ih []
      have hK : (if pend.length < m then pend else []).flatten.length
          ≤ pend.flatten.length := by
        split
        · exact le_rfl
        · simp
      simp only [List.flatten_append, List.flatten_cons, List.flatten_nil,
        List.length_append, List.length_nil, Nat.zero_add] at hrec hK ⊢
      omega

theorem noRem_all (p : List Int → Bool) (m : Nat) :
    ∀ (l : List (List Int)) (r : Nat), (∀ x ∈ l, p x = true) → noRem p m l r = true := by
  intro l
  induction l with
  | nil => intro r _; rfl
  | cons f t ih =>
    intro r hall
    have hf : p f = true := hall f (List.mem_cons_self f t)
    rw [noRem, if_pos hf]
    exact ih (r + 1) (fun x hx => hall x (List.mem_cons_of_mem f hx))

theorem noRem_append (p : List Int → Bool) (m : Nat) :
    ∀ (K rest : List (List Int)) (r : Nat), (∀ x ∈ K, p x = true) →
      noRem p m (K ++ rest) r = noRem p m rest (r + K.length) := by
  intro K
  induction K with
  | nil => intro rest r _; simp
  | cons f t ih =>
    intro rest r hall
    have hf : p f = true := hall f (List.mem_cons_self f t)
    rw [List.cons_append, noRem, if_pos hf,
      ih rest (r + 1) (fun x hx => hall x (List.mem_cons_of_mem f hx))]
    congr 1
    simp
    omega

theorem rmLoop_fix (p : List Int → Bool) (m : Nat) :
    ∀ (fs pend : List (List Int)), noRem p m fs pend.length = true →
      rmLoop p m fs pend = pend ++ fs := by
  intro fs
  induction fs with
  | nil => intro pend _; simp [rmLoop]
  | cons f t ih =>
    intro pend hno
    by_cases h : p f
    · rw [rmLoop, if_pos h]
      rw [noRem, if_pos h] at hno
      rw [ih (pend ++ [f]) (by simpa using hno)]
      simp
    · rw [rmLoop, if_neg h]
      rw [noRem, if_neg h] at hno
      simp only [Bool.and_eq_true, Bool.or_eq_true, decide_eq_true_eq] at hno
      obtain ⟨hor, hrest⟩ := hno
      have hkept : (if pend.length < m then pend else []) = pend := by
        rcases hor with hlt | hzero
        · rw [if_pos hlt]
        · have hp : pend = [] := List.length_eq_zero.mp hzero
          subst hp
          simp
      rw [hkept, ih [] (by simpa using hrest)]
      simp

theorem rmLoop_noRem (p : List Int → Bool) (m : Nat) :
    ∀ (fs pend : List (List Int)), (∀ x ∈ pend, p x = true) →
      noRem p m (rmLoop p m fs pend) 0 = true := by
  intro fs
  induction fs with
  | nil =>
    intro pend hp
    rw [rmLoop]
    exact noRem_all p m pend 0 hp
  | cons f t ih =>
    intro pend hp
    by_cases h : p f
    · rw [rmLoop, if_pos h]
      refine ih (pend ++ [f]) ?_
      intro x hx
      rcases List.mem_append.mp hx with h1 | h2
      · exact hp x h1
      · simp at h2
        subst h2
        exact h
    · rw [rmLoop, if_neg h]
      have hKall : ∀ x ∈ (if pend.length < m then pend else []), p x = true := by
        split
        · exact hp
        · intro x hx; simp at hx
      have hKor : (if pend.length < m then pend else []).length < m ∨
          (if pend.length < m then pend else []).length = 0 := by
        split
        · left; assumption
        · right; rfl
      rw [noRem_append p m _ _ 0 hKall, noRem, if_neg h,
        ih [] (by intro x hx; simp at hx)]
      rcases hKor with h1 | h2
      · simp only [Nat.zero_add]
        simp [h1]
      · simp only [Nat.zero_add]
        simp [h2]

theorem rmLoop_idem (p : List Int → Bool) (m : Nat) (fs : List (List Int)) :
    rmLoop p m (rmLoop p m fs []) [] = rmLoop p m fs [] := by
  have h := rmLoop_noRem p m fs [] (by intro x hx; simp at hx)
  have h2 := rmLoop_fix p m (rmLoop p m fs []) [] (by simpa using h)
  simpa using h2

theorem noRem_zero_of_loud (p : List Int → Bool) (m : Nat) :
    ∀ fs, (∀ f ∈ fs, p f = false) → noRem p m fs 0 = true := by
  intro fs
  induction fs with
  | nil => intro _; rfl
  | cons f t ih =>
    intro hall
    have hf : p f = false := hall f (List.mem_cons_self f t)
    rw [noRem, if_neg (by simp [hf])]
    rw [ih (fun x hx => hall x (List.mem_cons_of_mem f hx))]
    simp

theorem rmLoop_of_loud (p : List Int → Bool) (m : Nat) (fs : List (List Int))
    (h : ∀ f ∈ fs, p f = false) :
    rmLoop p m fs [] = fs := by
  have h2 := rmLoop_fix p m fs [] (by simpa using noRem_zero_of_loud p m fs h)
  simpa using h2

theorem rmLoop_mem (p : List Int → Bool) (m : Nat) :
    ∀ (fs pend : List (List Int)) (x : List Int),
      x ∈ rmLoop p m fs pend → x ∈ pend ∨ x ∈ fs := by
  intro fs
  induction fs with
  | nil =>
    intro pend x hx
    rw [rmLoop] at hx
    exact Or.inl hx
  | cons f t ih =>
    intro pend x hx
    by_cases h : p f
    · rw [rmLoop, if_pos h] at hx
      rcases ih (pend ++ [f]) x hx with h1 | h2
      · rcases List.mem_append.mp h1 with ha | hb
        · exact Or.inl ha
        · simp at hb
          subst hb
          exact Or.inr (List.mem_cons_self x t)
      · exact Or.inr (List.mem_cons_of_mem f h2)
    · rw [rmLoop, if_neg h] at hx
      rcases List.mem_append.mp hx with h1 | h2
      · left
        revert h1
        split
        · exact id
        · intro h1; simp at h1
      · rcases List.mem_cons.mp h2 with rfl | h3
        · exact Or.inr (List.mem_cons_self x t)
        · rcases ih [] x h3 with h4 | h5
          · simp at h4
          · exact Or.inr (List.mem_cons_of_mem f h5)

theorem removeLoop_eq_rmLoop (samples : List Int) (θ : ℚ) (m c : Nat) (hc : 0 < c) :
    ∀ (fs : List (List Int)) (i count start lastEnd rs : Nat)
      (segs : List (Nat × Nat)) (res : List Int) (pend : List (List Int)),
      fs = toFrames c (samples.drop i) →
      rs = (if count = 0 then i else start) →
      pend.length = count →
      (∀ f ∈ pend, isSilent θ c f = true) →
      pend.flatten = copyRange samples c rs i →
      lastEnd ≤ rs →
      i = rs + count * c →
      c ∣ lastEnd → c ∣ rs →
      (removeLoop samples θ m c fs i count start lastEnd segs res).2
        = res ++ copyRange samples c lastEnd rs
            ++ (rmLoop (isSilent θ c) m fs pend).flatten := by
  intro fs
  induction fs with
  | nil =>
    intro i count start lastEnd rs segs res pend h1 h2 h3 h4 h5 h6 h7 h8 h9
    rw [removeLoop, rmLoop]
    have hdrop : samples.drop i = [] := toFrames_ne_nil_imp c hc (samples.drop i) h1.symm
    have hlen : samples.length ≤ i := by
      have := List.drop_eq_nil_iff.mp hdrop
      exact this
    have hrsle : rs ≤ i := by omega
    have hdvd_ri : c ∣ (i - rs) := by
      have e : i - rs = count * c := by omega
      rw [e]
      exact Dvd.intro count (mul_comm c count ▸ rfl)
    have hflat : pend.flatten = samples.drop rs := by
      rw [h5, copyRange_eq_take samples c rs i hc hdvd_ri]
      refine List.take_of_length_le ?_
      rw [List.length_drop]
      omega
    rw [hflat, copyRange_tail samples c lastEnd samples.length hc le_rfl,
      copyRange_eq_take samples c lastEnd rs hc (Nat.dvd_sub' h9 h8)]
    have e2 : samples.drop rs = (samples.drop lastEnd).drop (rs - lastEnd) := by
      rw [List.drop_drop]
      congr 1
      omega
    rw [e2, List.append_assoc, List.take_append_drop]
  | cons f fs ih =>
    intro i count start lastEnd rs segs res pend h1 h2 h3 h4 h5 h6 h7 h8 h9
    have hne : samples.drop i ≠ [] := by
      intro e
      rw [e, toFrames_nil] at h1
      simp at h1
    have hdec := toFrames_cons c hc (samples.drop i) hne
    rw [hdec] at h1
    injection h1 with hf hfs
    have hfs' : fs = toFrames c (samples.drop (i + c)) := by
      rw [hfs]
      congr 1
      rw [List.drop_drop]
    have hdvd_i : c ∣ i := by
      rw [h7]
      exact Nat.dvd_add h9 (Dvd.intro count (mul_comm c count ▸ rfl))
    have hrsle : rs ≤ i := by omega
    have hdvd_ri : c ∣ (i - rs) := by
      have e : i - rs = count * c := by omega
      rw [e]
      exact Dvd.intro count (mul_comm c count ▸ rfl)
    by_cases hsil : isSilent θ c f = true
    · -- sub-threshold frame: the run grows
      rw [removeLoop, if_pos hsil, rmLoop, if_pos hsil]
      refine ih (i + c) (count + 1) (if count = 0 then i else start) lastEnd rs segs res
        (pend ++ [f]) hfs' ?_ ?_ ?_ ?_ h6 ?_ h8 h9
      · rw [if_neg (Nat.succ_ne_zero count)]
        exact h2
      · simp [h3]
      · intro x hx
        rcases List.mem_append.mp hx with ha | hb
        · exact h4 x ha
        · simp at hb
          subst hb
          exact hsil
      · rw [List.flatten_append, h5,
          copyRange_split samples c rs (i + c) i hc hrsle (by omega) hdvd_ri
            (by simp),
          copyRange_frame samples c i hc, hf]
        simp
      · have e : (count + 1) * c = count * c + c := by ring
        omega
    · have hsilf : isSilent θ c f = false := by
        simpa using hsil
      rw [removeLoop, if_neg hsil, rmLoop, if_neg hsil]
      rcases Nat.eq_zero_or_pos count with hcount | hcount
      · -- loud frame, no pending run: nothing happens
        subst hcount
        rw [if_neg (lt_irrefl 0)]
        have hpend : pend = [] := List.length_eq_zero.mp h3
        subst hpend
        have hrs : rs = i := by simpa using h2
        subst hrs
        rw [ih (rs + c) 0 start lastEnd (rs + c) segs res [] hfs' (by simp) rfl
          (by intro x hx; simp at hx)
          (by rw [copyRange_stop samples c (rs + c) (rs + c) le_rfl]; rfl)
          (by omega) (by omega) h8 (Nat.dvd_add h9 (dvd_refl c))]
        rw [copyRange_split samples c lastEnd (rs + c) rs hc h6 (by omega)
          (Nat.dvd_sub' h9 h8) (by simp),
          copyRange_frame samples c rs hc, ← hf]
        simp [List.append_assoc]
      · rw [if_pos hcount]
        have hrs : rs = start := by
          rw [h2, if_neg (by omega)]
        subst hrs
        by_cases hm : m ≤ count
        · -- loud frame closing a qualifying run: the run is dropped
          rw [if_pos hm, if_neg (by omega)]
          rw [ih (i + c) 0 rs i (i + c) (segs ++ [(rs, i)])
            (res ++ copyRange samples c lastEnd rs) [] hfs' (by simp) rfl
            (by intro x hx; simp at hx)
            (by rw [copyRange_stop samples c (i + c) (i + c) le_rfl]; rfl)
            (by omega) (by omega) hdvd_i (Nat.dvd_add hdvd_i (dvd_refl c))]
          rw [copyRange_frame samples c i hc, ← hf]
          simp [List.append_assoc]
        · -- loud frame closing a short run: the run is kept verbatim
          rw [if_neg hm, if_pos (by omega)]
          rw [ih (i + c) 0 rs lastEnd (i + c) segs res [] hfs' (by simp) rfl
            (by intro x hx; simp at hx)
            (by rw [copyRange_stop samples c (i + c) (i + c) le_rfl]; rfl)
            (by omega) (by omega) h8 (Nat.dvd_add hdvd_i (dvd_refl c))]
          rw [copyRange_split samples c lastEnd (i + c) rs hc h6 (by omega)
            (Nat.dvd_sub' h9 h8)
            (by have e : i + c - rs = count * c + c := by omega
                rw [e]
                exact Nat.dvd_add (Dvd.intro count (mul_comm c count ▸ rfl)) (dvd_refl c)),
            copyRange_split samples c rs (i + c) i hc hrsle (by omega) hdvd_ri
              (by simp),
            copyRange_frame samples c i hc, ← hf, ← h5]
          simp [List.append_assoc]

theorem removeAllSilence_eq_rmLoop (θ : ℚ) (minLen channels sampleRate : Nat)
    (samples : List Int) (hc : 0 < channels) :
    (removeAllSilence θ minLen channels sampleRate samples).2
      = (rmLoop (isSilent θ channels) (minLen * sampleRate / 1000)
          (toFrames channels samples) []).flatten := by
  have h := removeLoop_eq_rmLoop samples θ (minLen * sampleRate / 1000) channels hc
    (toFrames channels samples) 0 0 0 0 0 [] [] []
    (by rw [List.drop_zero]) (by simp) rfl (by intro x hx; simp at hx)
    (by rw [copyRange_stop samples channels 0 0 le_rfl]; rfl)
    le_rfl (by simp) (dvd_zero channels) (dvd_zero channels)
  rw [removeAllSilence, h, copyRange_stop samples channels 0 0 le_rfl]
  simp

theorem rmLoop_through_silent (p : List Int → Bool) (m : Nat) :
    ∀ (r rest pend : List (List Int)), (∀ x ∈ r, p x = true) →
      rmLoop p m (r ++ rest) pend = rmLoop p m rest (pend ++ r) := by
  intro r
  induction r with
  | nil => intro rest pend _; simp
  | cons x t ih =>
    intro rest pend hall
    have hx : p x = true := hall x (List.mem_cons_self x t)
    rw [List.cons_append, rmLoop, if_pos hx,
      ih rest (pend ++ [x]) (fun y hy => hall y (List.mem_cons_of_mem x hy))]
    simp

theorem rmLoop_prefix_to_loud (p : List Int → Bool) (m : Nat) (f : List Int)
    (hf : p f = false) :
    ∀ (u T pend : List (List Int)),
      ∃ w, rmLoop p m (u ++ f :: T) pend = w ++ f :: rmLoop p m T [] := by
  intro u
  induction u with
  | nil =>
    intro T pend
    rw [List.nil_append, rmLoop, if_neg (by simp [hf])]
    exact ⟨if pend.length < m then pend else [], rfl⟩
  | cons x t ih =>
    intro T pend
    by_cases hx : p x = true
    · rw [List.cons_append, rmLoop, if_pos hx]
      exact ih T (pend ++ [x])
    · have hx' : p x = false := by simpa using hx
      rw [List.cons_append, rmLoop, if_neg (by simp [hx'])]
      obtain ⟨w, hw⟩ := ih T []
      refine ⟨(if pend.length < m then pend else []) ++ x :: w, ?_⟩
      rw [hw]
      simp

/-- Claim C2, amended: the background remove
(`remove_all_silence_background`) preserves every sub-threshold run
shorter than the minimum verbatim.  First conjunct: its output buffer is
exactly the flattening of the run scan `rmLoop`, which by construction
copies a pending run through unchanged whenever it is shorter than
`min_samples` frames and deletes only interior runs of at least
`min_samples` frames.  Second conjunct: explicitly, any maximal
sub-threshold run `r` shorter than the minimum that is enclosed between
loud frames `f` and `g` reappears verbatim and contiguously in the scan's
output.  (The legacy `remove_silence` of `main.rs` violates the original
claim: it replaces such runs with zero samples of equal length — see the
counterexample.) -/
theorem background_remove_preserves_short_runs (θ : ℚ)
    (minLen channels sampleRate : Nat) (samples : List Int) (hc : 0 < channels) :
    (removeAllSilence θ minLen channels sampleRate samples).2
        = (rmLoop (isSilent θ channels) (minLen * sampleRate / 1000)
            (toFrames channels samples) []).flatten
      ∧ ∀ (u : List (List Int)) (f : List Int) (r : List (List Int)) (g : List Int)
          (v : List (List Int)),
          isSilent θ channels f = false → isSilent θ channels g = false →
          (∀ x ∈ r, isSilent θ channels x = true) →
          r.length < minLen * sampleRate / 1000 →
          ∃ w, rmLoop (isSilent θ channels) (minLen * sampleRate / 1000)
              (u ++ f :: r ++ g :: v) []
            = w ++ f :: r ++ g :: rmLoop (isSilent θ channels)
                (minLen * sampleRate / 1000) v [] := by
  constructor
  · exact removeAllSilence_eq_rmLoop θ minLen channels sampleRate samples hc
  · intro u f r g v hf hg hr hlen
    obtain ⟨w, hw⟩ :=
      rmLoop_prefix_to_loud (isSilent θ channels) (minLen * sampleRate / 1000) f hf
        u (r ++ g :: v) []
    refine ⟨w, ?_⟩
    have e : u ++ f :: r ++ g :: v = u ++ f :: (r ++ g :: v) := by simp
    rw [e, hw, rmLoop_through_silent (isSilent θ channels) (minLen * sampleRate / 1000)
      r (g :: v) [] hr, List.nil_append, rmLoop, if_neg (by simp [hg]), if_pos hlen]
    simp

theorem background_remove_preserves_short_runs_witness :
    0 < 1 ∧
      ((removeAllSilence 0 0 1 0 []).2
          = (rmLoop (isSilent 0 1) (0 * 0 / 1000) (toFrames 1 []) []).flatten
        ∧ ∀ (u : List (List Int)) (f : List Int) (r : List (List Int)) (g : List Int)
            (v : List (List Int)),
            isSilent 0 1 f = false → isSilent 0 1 g = false →
            (∀ x ∈ r, isSilent 0 1 x = true) →
            r.length < 0 * 0 / 1000 →
            ∃ w, rmLoop (isSilent 0 1) (0 * 0 / 1000) (u ++ f :: r ++ g :: v) []
              = w ++ f :: r ++ g :: rmLoop (isSilent 0 1) (0 * 0 / 1000) v []) :=
  ⟨by decide, background_remove_preserves_short_runs 0 0 1 0 [] (by decide)⟩

theorem frameAmp_nonneg (c : Nat) (f : List Int) : 0 ≤ frameAmp c f := by
  unfold frameAmp
  apply div_nonneg
  · apply List.sum_nonneg
    intro x hx
    simp only [List.mem_map] at hx
    obtain ⟨s, _, rfl⟩ := hx
    positivity
  · exact Nat.cast_nonneg c

theorem isSilent_zero (c : Nat) (f : List Int) : isSilent 0 c f = false := by
  rw [isSilent_eq_false_iff]
  exact not_lt.mpr (frameAmp_nonneg c f)

/-- Claim C6: for every buffer and parameters, the output of the
background remove is never longer than the input; and for threshold 0 no
frame amplitude is ever strictly below the threshold (amplitudes are
non-negative), so the output equals the input sample for sample. -/
theorem remove_output_shorter_and_id_at_zero_threshold (θ : ℚ)
    (minLen channels sampleRate : Nat) (samples : List Int) (hc : 0 < channels) :
    (removeAllSilence θ minLen channels sampleRate samples).2.length ≤ samples.length
      ∧ (θ = 0 → (removeAllSilence θ minLen channels sampleRate samples).2 = samples) := by
  have hb := removeAllSilence_eq_rmLoop θ minLen channels sampleRate samples hc
  constructor
  · rw [hb]
    have h1 := rmLoop_flatten_length (isSilent θ channels) (minLen * sampleRate / 1000)
      (toFrames channels samples) []
    rw [flatten_toFrames channels hc samples] at h1
    simpa using h1
  · intro hθ
    subst hθ
    rw [hb, rmLoop_of_loud (isSilent 0 channels) (minLen * sampleRate / 1000)
      (toFrames channels samples) (fun f _ => isSilent_zero channels f),
      flatten_toFrames channels hc samples]

theorem remove_output_shorter_and_id_at_zero_threshold_witness :
    0 < 1 ∧
      ((removeAllSilence 0 0 1 0 [10000]).2.length ≤ ([10000] : List Int).length
        ∧ ((0 : ℚ) = 0 → (removeAllSilence 0 0 1 0 [10000]).2 = [10000])) :=
  ⟨by decide, remove_output_shorter_and_id_at_zero_threshold 0 0 1 0 [10000] (by decide)⟩

/-- Claim C7: the background remove is idempotent.  Applying
`remove_all_silence_background` a second time, with the same threshold and
minimum duration, to its own output returns that output unchanged: after
the first pass every interior sub-threshold run is shorter than the
minimum (qualifying ones were deleted and their neighbours are loud), and
a trailing run — which the first pass kept because its branch never
updates `last_end` — is kept again by the second pass for the same reason. -/
theorem remove_idempotent (θ : ℚ) (minLen channels sampleRate : Nat)
    (samples : List Int) (hc : 0 < channels) (hdvd : channels ∣ samples.length) :
    (removeAllSilence θ minLen channels sampleRate
        ((removeAllSilence θ minLen channels sampleRate samples).2)).2
      = (removeAllSilence θ minLen channels sampleRate samples).2 := by
  have hb1 := removeAllSilence_eq_rmLoop θ minLen channels sampleRate samples hc
  have hy := removeAllSilence_eq_rmLoop θ minLen channels sampleRate
    ((removeAllSilence θ minLen channels sampleRate samples).2) hc
  have hframes : toFrames channels
        ((removeAllSilence θ minLen channels sampleRate samples).2)
      = rmLoop (isSilent θ channels) (minLen * sampleRate / 1000)
          (toFrames channels samples) [] := by
    rw [hb1]
    refine toFrames_flatten channels hc _ ?_
    intro g hg
    rcases rmLoop_mem (isSilent θ channels) (minLen * sampleRate / 1000)
        (toFrames channels samples) [] g hg with h1 | h2
    · simp at h1
    · exact toFrames_full_frames channels hc samples.length samples le_rfl hdvd g h2
  rw [hy, hframes, rmLoop_idem, hb1]

theorem remove_idempotent_witness :
    0 < 1 ∧ ((1 : Nat) ∣ ([10000] : List Int).length ∧
      (removeAllSilence 0 0 1 0 ((removeAllSilence 0 0 1 0 [10000]).2)).2
        = (removeAllSilence 0 0 1 0 [10000]).2) :=
  ⟨by decide, by decide, remove_idempotent 0 0 1 0 [10000] (by decide) (by decide)⟩
